import Mathlib

/-!
Verification of `Mopy/bash/load_order.py` (Wrye Bash load-order management).

This file gives a shallow embedding of the load-order cache, its undo/redo
history, the trimming policy and the lock guard, translated from the Python
source, and proves the specification's claims about them.

Modelling conventions:
* Mod identifiers (`bolt.Path` values) are modelled by `ModId := Nat`;
  the case-insensitive alphabetical order on paths is modelled by the
  linear order on `Nat`.
* Python's `sys.maxint` (64-bit CPython 2) is `maxint = 2^63 - 1`.
* Python exceptions are modelled with `Except`; an exception escaping a
  function that mutated module state carries the mutated state with it.
* The module-level mutable state (`cached_lord`, `_saved_load_orders`,
  `_current_list_index`) is an explicit `LoState` record threaded through
  the functions; the `games.Game` adapter (`game_handle`) is a record of
  the functions the code under scrutiny calls on it.
* `time.time()` stamps are modelled by a `now : Nat` argument.
* Python 2 `/` on non-negative ints is floor division, which agrees with
  Lean's `Int` division for the divisor 2 used here.
-/

/-- Mod identifiers (`bolt.Path`). The alphabetical (case-insensitive) order
used by `Path.__lt__` is modelled by the order on `Nat`. -/
abbrev ModId := Nat

/-- `sys.maxint` on 64-bit CPython 2. -/
def maxint : Nat := 2 ^ 63 - 1

/-- The dict `dict((a, i) for i, a in enumerate(loadOrder))`: maps a mod name
to its position in `loadOrder` (the *last* position, as later pairs of the
comprehension overwrite earlier ones). -/
def mod_loIndex (loadOrder : List ModId) (x : ModId) : Option Nat :=
  (loadOrder.enum.reverse.find? (fun p => p.2 == x)).map Prod.fst

/-- Sort key `self.__mod_loIndex.__getitem__`; the guarded call sites only use
it on names present in `loadOrder`, so the `getD 0` default is never reached
there. -/
def loKey (loadOrder : List ModId) (x : ModId) : Nat :=
  (mod_loIndex loadOrder x).getD 0

/-- The state of a constructed `LoadOrder` object (class `LoadOrder`):
`_loadOrder` tuple, `_active` frozenset, and the memoised `_activeOrdered`
tuple. The index dicts `__mod_loIndex` / `__mod_actIndex` are recomputed by
`mod_loIndex` on demand instead of being stored. -/
structure LoadOrder where
  _loadOrder : List ModId
  _active : Finset ModId
  _activeOrdered : List ModId
deriving DecidableEq

/-- `LoadOrder.__eq__`: compares `_active` and `_loadOrder` only (the derived
`_activeOrdered` does not bear identity). -/
def loEq (a b : LoadOrder) : Prop :=
  a._active = b._active ∧ a._loadOrder = b._loadOrder

instance (a b : LoadOrder) : Decidable (loEq a b) := by
  unfold loEq; infer_instance

/-- `LoadOrder.__init__(loadOrder, active)`: raises `bolt.BoltError` whose
message lists every identifier of `set(active) - set(loadOrder)` when that
difference is non-empty; otherwise builds the object, with `_activeOrdered =
sorted(active, key=self.__mod_loIndex.__getitem__)` (a stable sort, modelled
by `List.insertionSort`). The error value is the set whose members the
message lists. -/
def LoadOrder.mk? (loadOrder : List ModId) (active : List ModId) :
    Except (Finset ModId) LoadOrder :=
  let missing := active.toFinset \ loadOrder.toFinset
  if missing = ∅ then
    .ok { _loadOrder := loadOrder,
          _active := active.toFinset,
          _activeOrdered :=
            active.insertionSort (fun a b => loKey loadOrder a ≤ loKey loadOrder b) }
  else
    .error missing

/-- The record `LoadOrder.mk?` produces on success, as a total function. -/
def LoadOrder.ofPair (w : List ModId × List ModId) : LoadOrder :=
  { _loadOrder := w.1,
    _active := w.2.toFinset,
    _activeOrdered :=
      w.2.insertionSort (fun a b => loKey w.1 a ≤ loKey w.1 b) }

/-- The module-level `__empty = LoadOrder()` sentinel. -/
def emptyLO : LoadOrder := { _loadOrder := [], _active := ∅, _activeOrdered := [] }

instance {ε α : Type} [DecidableEq ε] [DecidableEq α] : DecidableEq (Except ε α) :=
  fun x y =>
    match x, y with
    | .ok a, .ok b => decidable_of_iff (a = b) (by simp)
    | .error a, .error b => decidable_of_iff (a = b) (by simp)
    | .ok _, .error _ => isFalse (by simp)
    | .error _, .ok _ => isFalse (by simp)

/-- A `LoadOrder` value is canonical when reconstructing it from its own
`_loadOrder` and `_activeOrdered` fields gives it back; every value actually
built by `LoadOrder.__init__` is canonical. -/
def Canonical (lo : LoadOrder) : Prop :=
  LoadOrder.mk? lo._loadOrder lo._activeOrdered = .ok lo

instance (lo : LoadOrder) : Decidable (Canonical lo) := by
  unfold Canonical; infer_instance

/-- `loIndexCachedOrMax(mod)`: the cached index, or `sys.maxint` on
`KeyError`, "to sort mods that do not have a load order LAST". The cache
argument is explicit. -/
def loIndexCachedOrMax (cached_lord : LoadOrder) (mod : ModId) : Nat :=
  match mod_loIndex cached_lord._loadOrder mod with
  | some i => i
  | none => maxint

/-- `get_ordered(mod_names)`: `mod_names.sort()` (alphabetical) followed by
the stable `mod_names.sort(key=loIndexCachedOrMax)`; Python's stable
`list.sort` is modelled by the stable `List.insertionSort`. -/
def get_ordered (cached_lord : LoadOrder) (mod_names : List ModId) : List ModId :=
  List.insertionSort
    (fun a b => loIndexCachedOrMax cached_lord a ≤ loIndexCachedOrMax cached_lord b)
    (List.insertionSort (· ≤ ·) mod_names)

/-- Order on identifiers by cached index, ties broken alphabetically: the
order `get_ordered` is claimed to produce. -/
def loLex (cached_lord : LoadOrder) (a b : ModId) : Prop :=
  loIndexCachedOrMax cached_lord a < loIndexCachedOrMax cached_lord b ∨
    (loIndexCachedOrMax cached_lord a = loIndexCachedOrMax cached_lord b ∧ a ≤ b)

/-- An entry of `_saved_load_orders`: namedtuple `lo_entry(date, lord)`. -/
structure lo_entry where
  date : Nat
  lord : LoadOrder
deriving DecidableEq

/-- The module-level mutable state: `cached_lord`, `_saved_load_orders` and
`_current_list_index`. -/
structure LoState where
  cached_lord : LoadOrder
  saved : List lo_entry
  current : Int
deriving DecidableEq

/-- The `games.Game` adapter (`game_handle`), restricted to the operations
the code under study calls: `set_load_order` (write), its `dry_run=True`
variant, and `get_load_order` (which may raise, modelled by `Except`). -/
structure Game where
  set_load_order : Option (List ModId) → Option (List ModId) →
    List ModId → List ModId → List ModId × List ModId
  set_load_order_dry : List ModId → List ModId → List ModId × List ModId
  get_load_order : Option (List ModId) → Option (List ModId) →
    Except Unit (List ModId × List ModId)

/-- Exceptions escaping the cache layer: an adapter (`game_handle`) failure,
or a `bolt.BoltError` from `LoadOrder.__init__` carrying the offending set. -/
inductive LoErr where
  | adapter : LoErr
  | validation : Finset ModId → LoErr
deriving DecidableEq

/-- Python list subscript `l[i]` for the in-range indices the code uses
(non-negative, and negative indices wrapping from the end). -/
def pyGet (l : List lo_entry) (i : Int) : lo_entry :=
  if i < 0 then l.getD ((l.length : Int) + i).toNat ⟨0, emptyLO⟩
  else l.getD i.toNat ⟨0, emptyLO⟩

/-- Python slice assignment `l[i:i] = [e]` for `0 ≤ i`: insert `e` at
position `i` (appending when `i ≥ len(l)`). -/
def pyInsertAt (l : List lo_entry) (i : Nat) (e : lo_entry) : List lo_entry :=
  l.take i ++ e :: l.drop i

/-- Python slice index clamping for `l[a:b]`. -/
def pySliceIdx (len : Nat) (i : Int) : Nat :=
  if i < 0 then ((len : Int) + i).toNat else min i.toNat len

/-- Python slice `l[a:b]` (step 1). -/
def pySlice (l : List lo_entry) (a b : Int) : List lo_entry :=
  (l.take (pySliceIdx l.length b)).drop (pySliceIdx l.length a)

/-- `int(math.copysign(1, m))` for an int `m` (Python: `-1` for negative
`m`, else `1`). -/
def copysign1 (m : Int) : Int := if m < 0 then -1 else 1

/-- `_new_entry()`: `_saved_load_orders[i:i] = [lo_entry(time.time(),
cached_lord)]` at `i = _current_list_index` (non-negative at both call
sites). -/
def _new_entry (now : Nat) (st : LoState) : LoState :=
  { st with saved := pyInsertAt st.saved st.current.toNat ⟨now, st.cached_lord⟩ }

/-- The `finally:` block of `_update_cache`, run when `cached_lord` is a
fresh (non-sentinel) object: plant a new entry on a genuinely new load
order, or move the index on undo/redo, planting a corrective entry when the
navigation only partially restored the target. -/
def _update_cache_finally (index_move : Int) (now : Nat) (st : LoState) : LoState :=
  if st.current < 0 ∨
      (index_move = 0 ∧ ¬ loEq st.cached_lord (pyGet st.saved st.current).lord) then
    _new_entry now { st with current := st.current + 1 }
  else if index_move ≠ 0 then
    let st1 := { st with current := st.current + index_move }
    if ¬ loEq (pyGet st1.saved st1.current).lord st1.cached_lord then
      _new_entry now
        { st1 with current := max 0 (st1.current + copysign1 index_move) }
    else st1
  else st

/-- `_update_cache(lord, acti_sorted, __index_move)`: asks the adapter's
`get_load_order`, constructs the new `LoadOrder`, and on any exception
resets `cached_lord` to the `__empty` sentinel and re-raises (the `finally:`
history update is skipped since `cached_lord is __empty` then); on success
the `finally:` block updates the history. An error carries the state as
left behind by the handler. -/
def _update_cache (g : Game) (lord acti_sorted : Option (List ModId))
    (index_move : Int) (now : Nat) (st : LoState) :
    Except (LoErr × LoState) LoState :=
  match g.get_load_order lord acti_sorted with
  | .error _ => .error (.adapter, { st with cached_lord := emptyLO })
  | .ok (l, a) =>
    match LoadOrder.mk? l a with
    | .error m => .error (.validation m, { st with cached_lord := emptyLO })
    | .ok lo => .ok (_update_cache_finally index_move now { st with cached_lord := lo })

/-- `save_lo(lord, acti, __index_move)`: pass the proposal together with the
cached previous order/active through the adapter's `set_load_order`, then
reconcile via `_update_cache` (which makes the returned `cached_lord` the
state's `cached_lord` field). -/
def save_lo (g : Game) (lord acti : Option (List ModId)) (index_move : Int)
    (now : Nat) (st : LoState) : Except (LoErr × LoState) LoState :=
  let r := g.set_load_order lord acti st.cached_lord._loadOrder
    st.cached_lord._activeOrdered
  _update_cache g (some r.1) (some r.2) index_move now st

/-- `__restore(index_move)`: undo/redo navigation with dry-run fixing of the
target and recursive skipping of now-indistinguishable states, the step
moving one further away from zero at each recursion; out-of-range targets
return the current state unchanged. -/
def __restore (g : Game) (now : Nat) (st : LoState) (index_move : Int) :
    Except (LoErr × LoState) LoState :=
  let index := st.current + index_move
  if h : index < 0 ∨ index > (st.saved.length : Int) - 1 then .ok st
  else
    let previous := (pyGet st.saved index).lord
    let r := g.set_load_order_dry previous._loadOrder previous._activeOrdered
    match LoadOrder.mk? r.1 r.2 with
    | .error m => .error (.validation m, st)
    | .ok previous2 =>
      if loEq previous2 st.cached_lord then
        __restore g now st (index_move + copysign1 index_move)
      else
        save_lo g (some previous2._loadOrder) (some previous2._activeOrdered)
          index_move now st
termination_by (st.current.natAbs + st.saved.length + 1) - index_move.natAbs
decreasing_by
  have h1 := not_or.mp h
  have habs : (index_move + copysign1 index_move).natAbs = index_move.natAbs + 1 := by
    unfold copysign1
    split <;> omega
  simp only [not_lt, not_le] at h1
  omega

/-- `undo_load_order()`. -/
def undo_load_order (g : Game) (now : Nat) (st : LoState) :
    Except (LoErr × LoState) LoState :=
  __restore g now st (-1)

/-- `redo_load_order()`. -/
def redo_load_order (g : Game) (now : Nat) (st : LoState) :
    Except (LoErr × LoState) LoState :=
  __restore g now st 1

/-- `_keep_max(max_to_keep, length)` with the global `_current_list_index`
passed explicitly; `max_2 = max_to_keep / 2` is Python 2 floor division. -/
def _keep_max (max_to_keep length current : Int) : Int × Int :=
  let max_2 := max_to_keep / 2
  let y := length - current
  if y ≤ max_2 then (max_to_keep - y, y)
  else if current > max_2 then (max_2, max_2)
  else (current, max_to_keep - current)

/-- The data `persist_orders(__keep_max)` stores: the (possibly trimmed)
entry list `_saved_load_orders[_current_list_index - x : _current_list_index
+ y]` and the stored index (`x` after trimming, unchanged otherwise). -/
def persist_orders (keep_max : Int) (st : LoState) : List lo_entry × Int :=
  if (st.saved.length : Int) > keep_max then
    let r := _keep_max keep_max st.saved.length st.current
    (pySlice st.saved (st.current - r.1) (st.current + r.2), r.1)
  else
    (st.saved, st.current)

/-- Fuel-indexed variant of `__restore`, identical except that each
duplicate-skipping recursion consumes one unit of fuel and running out of
fuel yields `none`; used to state that the recursion terminates within an
explicit bound. -/
def restore_fuel (g : Game) (now : Nat) (fuel : Nat) (st : LoState)
    (index_move : Int) : Option (Except (LoErr × LoState) LoState) :=
  let index := st.current + index_move
  if index < 0 ∨ index > (st.saved.length : Int) - 1 then some (.ok st)
  else
    let previous := (pyGet st.saved index).lord
    let r := g.set_load_order_dry previous._loadOrder previous._activeOrdered
    match LoadOrder.mk? r.1 r.2 with
    | .error m => some (.error (.validation m, st))
    | .ok previous2 =>
      if loEq previous2 st.cached_lord then
        match fuel with
        | 0 => none
        | fuel' + 1 => restore_fuel g now fuel' st (index_move + copysign1 index_move)
      else
        some (save_lo g (some previous2._loadOrder) (some previous2._activeOrdered)
          index_move now st)

/-- Iterate a fallible state transformer `n` times, stopping at the first
exception (models `n` successive calls on the module state). -/
def iterateE (f : LoState → Except (LoErr × LoState) LoState) :
    Nat → LoState → Except (LoErr × LoState) LoState
  | 0, st => .ok st
  | n + 1, st =>
    match f st with
    | .ok st1 => iterateE f n st1
    | .error e => .error e

/-- Perform the `save_lo` (set/write) calls for a list of proposed
`(order, active)` pairs, in order. -/
def save_lo_list (g : Game) (now : Nat) :
    List (List ModId × List ModId) → LoState → Except (LoErr × LoState) LoState
  | [], st => .ok st
  | w :: ws, st =>
    match save_lo g (some w.1) (some w.2) 0 now st with
    | .ok st1 => save_lo_list g now ws st1
    | .error e => .error e

/-- An adapter whose `set_load_order` (dry or not) and `get_load_order`
return every explicitly requested `(order, active)` pair unchanged. -/
def IdentityAdapter (g : Game) : Prop :=
  (∀ l a p q, g.set_load_order (some l) (some a) p q = (l, a)) ∧
  (∀ l a, g.set_load_order_dry l a = (l, a)) ∧
  (∀ l a, g.get_load_order (some l) (some a) = .ok (l, a))

/-- The canonical identity adapter. -/
def idGame : Game where
  set_load_order := fun lord acti _ _ => (lord.getD [], acti.getD [])
  set_load_order_dry := fun lord acti => (lord, acti)
  get_load_order := fun lord acti => .ok (lord.getD [], acti.getD [])

/-- A simple family of pairwise-distinct snapshots: load order `[k]`, no
active mods. -/
def S (k : Nat) : LoadOrder := LoadOrder.ofPair ([k], [])

/-- An adapter whose non-dry write path silently normalises every request to
the load order `[2]` (models an external system correcting a requested
order), while the dry-run path is the identity. -/
def normGame : Game where
  set_load_order := fun lord acti _ _ => (lord.getD [], acti.getD [])
  set_load_order_dry := fun lord acti => (lord, acti)
  get_load_order := fun _ _ => .ok ([2], [])

/-- An adapter whose `get_load_order` always raises. -/
def failGame : Game where
  set_load_order := fun lord acti _ _ => (lord.getD [], acti.getD [])
  set_load_order_dry := fun lord acti => (lord, acti)
  get_load_order := fun _ _ => .error ()

/-- `Unlock.__enter__`: capture the global `locked` in `self.__locked` and
force `locked = False`. Returns `(captured, new locked)`. -/
def Unlock_enter (locked : Bool) : Bool × Bool := (locked, false)

/-- `Unlock.__exit__`: restore `locked` to the captured value, whatever the
current value is and whether or not an exception is in flight. -/
def Unlock_exit (captured : Bool) (_locked : Bool) : Bool := captured

/-- `with Unlock(): body` — the body receives the `locked` value set by
`__enter__` and yields its outcome together with the `locked` value it left
behind; `__exit__` then runs unconditionally and the body's outcome
(including an exception) propagates. -/
def with_Unlock {ε α : Type} (locked : Bool)
    (body : Bool → Except ε α × Bool) : Except ε α × Bool :=
  let e := Unlock_enter locked
  let r := body e.2
  (r.1, Unlock_exit e.1 r.2)

/-- The history entries created when the writes `ws` are adopted at time
`now`: one entry per write, holding the snapshot the write constructs. -/
def mkEntries (now : Nat) (ws : List (List ModId × List ModId)) : List lo_entry :=
  ws.map (fun w => ⟨now, LoadOrder.ofPair w⟩)

/-- Concrete state used to exhibit the odd-bound trimming defect: two
entries, current index 1 (the last entry), bound 1. -/
def c2st : LoState := ⟨S 0, [⟨0, S 0⟩, ⟨1, S 1⟩], 1⟩

/-- Concrete state for the navigation claims: history `[S 0, S 1]` with the
cache and current index at `S 1`. -/
def c3st : LoState := ⟨S 1, [⟨0, S 0⟩, ⟨1, S 1⟩], 1⟩

/-- Concrete state for the undo/redo round-trip counterexample: history
`[S 0, S 7]` with the cache and current index at `S 0`. -/
def c4st : LoState := ⟨S 0, [⟨0, S 0⟩, ⟨0, S 7⟩], 0⟩

/-- Concrete state with a one-entry history, for witnesses. -/
def c5st : LoState := ⟨S 1, [⟨0, S 0⟩], 0⟩

/-- Concrete six-entry history with the current index in the middle, for the
trimming witness. -/
def c2stBig : LoState :=
  ⟨S 3, [⟨0, S 0⟩, ⟨1, S 1⟩, ⟨2, S 2⟩, ⟨3, S 3⟩, ⟨4, S 4⟩, ⟨5, S 5⟩], 3⟩

section helper_lemmas

theorem loEq_refl (a : LoadOrder) : loEq a a := ⟨rfl, rfl⟩

theorem toFinset_of_perm {l l' : List ModId} (h : l.Perm l') :
    l.toFinset = l'.toFinset := by
  ext x
  simp [List.mem_toFinset, h.mem_iff]

instance (L : List ModId) : IsTotal ModId (fun a b => loKey L a ≤ loKey L b) :=
  ⟨fun a b => Nat.le_total _ _⟩

instance (L : List ModId) : IsTrans ModId (fun a b => loKey L a ≤ loKey L b) :=
  ⟨fun _ _ _ => Nat.le_trans⟩

theorem mk?_eq_ok_ofPair (w : List ModId × List ModId)
    (h : w.2.toFinset ⊆ w.1.toFinset) :
    LoadOrder.mk? w.1 w.2 = .ok (LoadOrder.ofPair w) := by
  unfold LoadOrder.mk? LoadOrder.ofPair
  simp [Finset.sdiff_eq_empty_iff_subset.mpr h]

theorem canonical_ofPair (w : List ModId × List ModId)
    (h : w.2.toFinset ⊆ w.1.toFinset) : Canonical (LoadOrder.ofPair w) := by
  unfold Canonical
  have hperm : (w.2.insertionSort (fun a b => loKey w.1 a ≤ loKey w.1 b)).Perm w.2 :=
    List.perm_insertionSort _ _
  have hfs := toFinset_of_perm hperm
  have h2 := mk?_eq_ok_ofPair
    (w.1, w.2.insertionSort (fun a b => loKey w.1 a ≤ loKey w.1 b)) (by
      simpa [hfs] using h)
  rw [show (LoadOrder.ofPair w)._loadOrder = w.1 from rfl,
    show (LoadOrder.ofPair w)._activeOrdered =
      w.2.insertionSort (fun a b => loKey w.1 a ≤ loKey w.1 b) from rfl, h2]
  have hsorted : (w.2.insertionSort (fun a b => loKey w.1 a ≤ loKey w.1 b)).Sorted
      (fun a b => loKey w.1 a ≤ loKey w.1 b) := List.sorted_insertionSort _ _
  unfold LoadOrder.ofPair
  simp [hfs, hsorted.insertionSort_eq]

theorem canonical_of_mk? {l a : List ModId} {lo : LoadOrder}
    (h : LoadOrder.mk? l a = .ok lo) : Canonical lo := by
  by_cases hc : a.toFinset \ l.toFinset = ∅
  · have h2 : LoadOrder.mk? l a = .ok (LoadOrder.ofPair (l, a)) :=
      mk?_eq_ok_ofPair (l, a) (Finset.sdiff_eq_empty_iff_subset.mp hc)
    have h3 : LoadOrder.ofPair (l, a) = lo := by
      rw [h2] at h
      exact (Except.ok.injEq _ _).mp h
    rw [← h3]
    exact canonical_ofPair (l, a) (Finset.sdiff_eq_empty_iff_subset.mp hc)
  · exfalso
    unfold LoadOrder.mk? at h
    simp [hc] at h

theorem pyGet_append_cons (A : List lo_entry) (e : lo_entry) (B : List lo_entry) :
    pyGet (A ++ e :: B) (A.length : Int) = e := by
  unfold pyGet
  rw [if_neg (by omega)]
  rw [List.getD_eq_getElem?_getD]
  rw [show ((A.length : Int)).toNat = A.length from by omega]
  rw [List.getElem?_append_right (Nat.le_refl _)]
  simp

theorem pyInsertAt_append_cons (A : List lo_entry) (e : lo_entry)
    (B : List lo_entry) (x : lo_entry) :
    pyInsertAt (A ++ e :: B) (A.length + 1) x = A ++ e :: x :: B := by
  unfold pyInsertAt
  rw [List.take_append_eq_append_take, List.drop_append_eq_append_drop]
  rw [List.take_of_length_le (by omega), List.drop_of_length_le (by omega)]
  simp

end helper_lemmas

section slice_lemmas

theorem keep_max_eq (M L i : Int) :
    _keep_max M L i =
      if L - i ≤ M / 2 then (M - (L - i), L - i)
      else if i > M / 2 then (M / 2, M / 2)
      else (i, M - i) := rfl

theorem keep_max_spec (k L i : Int) (hk : 1 ≤ k) (hL : 2 * k < L)
    (h0 : 0 ≤ i) (h1 : i ≤ L - 1) :
    (_keep_max (2 * k) L i).1 + (_keep_max (2 * k) L i).2 = 2 * k ∧
    0 ≤ i - (_keep_max (2 * k) L i).1 ∧ i + (_keep_max (2 * k) L i).2 ≤ L ∧
    0 ≤ (_keep_max (2 * k) L i).1 ∧ 1 ≤ (_keep_max (2 * k) L i).2 := by
  rw [keep_max_eq]
  split_ifs <;> omega

theorem pySlice_spec (l : List lo_entry) (a b : Int) (h0 : 0 ≤ a) (hab : a ≤ b)
    (hb : b ≤ (l.length : Int)) :
    ((pySlice l a b).length : Int) = b - a ∧
    ∀ j : Nat, (j : Int) < b - a → (pySlice l a b)[j]? = l[a.toNat + j]? := by
  unfold pySlice pySliceIdx
  rw [if_neg (by omega), if_neg (by omega)]
  have hmb : min b.toNat l.length = b.toNat := by omega
  have hma : min a.toNat l.length = a.toNat := by omega
  rw [hmb, hma]
  constructor
  · rw [List.length_drop, List.length_take]
    omega
  · intro j hj
    rw [List.getElem?_drop, List.getElem?_take, if_pos (by omega)]

end slice_lemmas

/-- **C1**: `LoadOrder.__init__(order, active)` raises iff `active \ order`
is non-empty; the raised error carries exactly the set `active \ order`
(whose members the Python message lists), and whenever `active ⊆ order` the
construction succeeds, producing the canonical record. -/
theorem C1_construction_iff (order active : List ModId) :
    ((active.toFinset \ order.toFinset).Nonempty →
      LoadOrder.mk? order active = .error (active.toFinset \ order.toFinset)) ∧
    (active.toFinset ⊆ order.toFinset →
      LoadOrder.mk? order active = .ok (LoadOrder.ofPair (order, active))) := by
  constructor
  · intro h
    unfold LoadOrder.mk?
    simp [Finset.nonempty_iff_ne_empty.mp h]
  · intro h
    exact mk?_eq_ok_ofPair (order, active) h

/-- Witness for C1: a failing construction reporting exactly the missing
identifier, and a succeeding construction for a valid subset. -/
theorem C1_construction_iff_witness :
    LoadOrder.mk? [1, 2] [3, 1] = .error {3} ∧
    LoadOrder.mk? [1, 2, 3] [1, 3] = .ok (LoadOrder.ofPair ([1, 2, 3], [1, 3])) := by
  constructor
  · rw [(C1_construction_iff [1, 2] [3, 1]).1 (by decide)]
    decide
  · exact (C1_construction_iff [1, 2, 3] [1, 3]).2 (by decide)

/-- **C2** (counterexample): with the odd bound `max_entries = 1` and a
history of length `2 > 1` at the valid current index `1`, the trimming
policy computes `x = y = 0` (Python 2 floor division makes `max_2 = 0`), so
`x + y = 0 ≠ 1` and the stored list is empty instead of having length 1 —
the stored index 0 refers to no entry at all. -/
theorem C2_trim_counterexample :
    _keep_max 1 c2st.saved.length c2st.current = (0, 0) ∧
    persist_orders 1 c2st = ([], 0) ∧
    (persist_orders 1 c2st).1.length ≠ 1 ∧
    c2st.saved.length = 2 ∧ c2st.current = 1 := by
  decide

/-- **C2** (amended): for every *positive even* bound `M = 2k` and history
length `L > M` with valid current index, `_keep_max` computes `x + y = M`,
the stored slice has length exactly `M`, the stored index is `x`, and the
entry at position `x` of the stored slice is the entry that was at
`current_index` before trimming. -/
theorem C2_trim_even_bound (k : Int) (st : LoState) (hk : 1 ≤ k)
    (hL : 2 * k < (st.saved.length : Int)) (h0 : 0 ≤ st.current)
    (h1 : st.current ≤ (st.saved.length : Int) - 1) :
    (_keep_max (2 * k) st.saved.length st.current).1 +
      (_keep_max (2 * k) st.saved.length st.current).2 = 2 * k ∧
    ((persist_orders (2 * k) st).1.length : Int) = 2 * k ∧
    (persist_orders (2 * k) st).2 =
      (_keep_max (2 * k) st.saved.length st.current).1 ∧
    (persist_orders (2 * k) st).1[((_keep_max (2 * k)
      st.saved.length st.current).1).toNat]? = st.saved[st.current.toNat]? := by
  obtain ⟨hsum, hxa, hyb, hx0, hy1⟩ :=
    keep_max_spec k st.saved.length st.current hk hL h0 h1
  obtain ⟨hlen, hget⟩ := pySlice_spec st.saved
    (st.current - (_keep_max (2 * k) st.saved.length st.current).1)
    (st.current + (_keep_max (2 * k) st.saved.length st.current).2)
    (by omega) (by omega) (by omega)
  unfold persist_orders
  rw [if_pos hL]
  refine ⟨hsum, ?_, rfl, ?_⟩
  · rw [hlen]
    omega
  · have h2 := hget ((_keep_max (2 * k) st.saved.length st.current).1).toNat
      (by omega)
    rw [h2]
    rw [show (st.current - (_keep_max (2 * k) st.saved.length st.current).1).toNat +
      ((_keep_max (2 * k) st.saved.length st.current).1).toNat =
      st.current.toNat from by omega]

/-- Witness for the amended C2: bound 4, six entries, current index 3. -/
theorem C2_trim_even_bound_witness :
    ((persist_orders (2 * 2) c2stBig).1.length : Int) = 2 * 2 ∧
    (persist_orders (2 * 2) c2stBig).1[((_keep_max (2 * 2)
      c2stBig.saved.length c2stBig.current).1).toNat]? =
      c2stBig.saved[c2stBig.current.toNat]? := by
  have h := C2_trim_even_bound 2 c2stBig (by decide) (by decide) (by decide)
    (by decide)
  exact ⟨h.2.1, h.2.2.2⟩

/-- **C5**: whenever `_update_cache` propagates an exception — the adapter's
`get_load_order` raised, or `LoadOrder.__init__` raised on the returned pair
— the state it leaves behind has the cache slot reset to the `__empty`
sentinel and the history list and current index untouched, and both failure
modes do re-raise (first conjunct: any propagated failure leaves exactly
that state; second and third: each failure mode propagates). -/
theorem C5_reconciliation_failure (g : Game) (lord acti : Option (List ModId))
    (index_move : Int) (now : Nat) (st : LoState) (err : LoErr) (st' : LoState)
    (l a : List ModId) (m : Finset ModId) :
    (_update_cache g lord acti index_move now st = .error (err, st') →
      st' = { st with cached_lord := emptyLO }) ∧
    (g.get_load_order lord acti = .error () →
      _update_cache g lord acti index_move now st =
        .error (.adapter, { st with cached_lord := emptyLO })) ∧
    (g.get_load_order lord acti = .ok (l, a) → LoadOrder.mk? l a = .error m →
      _update_cache g lord acti index_move now st =
        .error (.validation m, { st with cached_lord := emptyLO })) := by
  refine ⟨?_, ?_, ?_⟩
  · intro h
    unfold _update_cache at h
    split at h
    · exact ((Prod.mk.injEq _ _ _ _).mp ((Except.error.injEq _ _).mp h)).2.symm
    · split at h
      · exact ((Prod.mk.injEq _ _ _ _).mp ((Except.error.injEq _ _).mp h)).2.symm
      · exact absurd h (by simp)
  · intro h
    simp only [_update_cache, h]
  · intro h hmk
    simp only [_update_cache, h, hmk]

/-- Witness for C5: the always-raising adapter propagates the failure and
resets only the cache slot. -/
theorem C5_reconciliation_failure_witness :
    _update_cache failGame none none 0 9 c5st =
      .error (.adapter, { c5st with cached_lord := emptyLO }) :=
  (C5_reconciliation_failure failGame none none 0 9 c5st .adapter c5st [] [] ∅).2.1
    rfl

/-- **C6**: an undo/redo whose target index `current + step` falls outside
`[0, len-1]` — in particular on an empty history — returns `.ok` with the
state entirely unchanged (same cache slot, history and index), for *every*
adapter (so the adapter is never consulted), and raises nothing. -/
theorem C6_navigation_noop (g : Game) (now : Nat) (st : LoState)
    (index_move : Int)
    (h : st.current + index_move < 0 ∨
      st.current + index_move > (st.saved.length : Int) - 1) :
    __restore g now st index_move = .ok st := by
  unfold __restore
  rw [dif_pos h]

/-- Witness for C6: undo and redo on the freshly initialised empty history
(`_current_list_index = -1`) are no-ops. -/
theorem C6_navigation_noop_witness :
    __restore idGame 0 ⟨emptyLO, [], -1⟩ (-1) = .ok ⟨emptyLO, [], -1⟩ ∧
    __restore idGame 0 ⟨emptyLO, [], -1⟩ 1 = .ok ⟨emptyLO, [], -1⟩ :=
  ⟨C6_navigation_noop idGame 0 ⟨emptyLO, [], -1⟩ (-1) (by decide),
   C6_navigation_noop idGame 0 ⟨emptyLO, [], -1⟩ 1 (by decide)⟩

/-- **C9**: the `Unlock` guard runs its body with `locked = False` (the
entry hook captured the previous value), and on release the global `locked`
is the captured original — unconditionally, whether the body succeeded or
raised — while the body's outcome (including an exception) propagates
unchanged to the caller. -/
theorem C9_unlock_guard (ε α : Type) (locked : Bool)
    (body : Bool → Except ε α × Bool) :
    (with_Unlock locked body).2 = locked ∧
    (with_Unlock locked body).1 = (body false).1 :=
  ⟨rfl, rfl⟩

/-- **C10**: `get_ordered` is total and returns a permutation of its input
(same elements, same multiplicities), whatever the cached snapshot is. -/
theorem C10_get_ordered_perm (cached_lord : LoadOrder)
    (mod_names : List ModId) :
    (get_ordered cached_lord mod_names).Perm mod_names :=
  (List.perm_insertionSort _ _).trans (List.perm_insertionSort _ _)

theorem restore_fuel_eq (g : Game) (now : Nat) (fuel : Nat) (st : LoState)
    (m : Int)
    (h : st.current.natAbs + st.saved.length + 1 ≤ fuel + m.natAbs) :
    restore_fuel g now fuel st m = some (__restore g now st m) := by
  induction fuel generalizing m with
  | zero =>
    have hout : st.current + m < 0 ∨ st.current + m > (st.saved.length : Int) - 1 := by
      omega
    rw [restore_fuel.eq_def, __restore.eq_def, if_pos hout, dif_pos hout]
  | succ fuel ih =>
    by_cases hout : st.current + m < 0 ∨ st.current + m > (st.saved.length : Int) - 1
    · rw [restore_fuel.eq_def, __restore.eq_def, if_pos hout, dif_pos hout]
    · rw [restore_fuel.eq_def, __restore.eq_def, if_neg hout, dif_neg hout]
      have hin : 0 ≤ st.current + m ∧ st.current + m ≤ (st.saved.length : Int) - 1 := by
        omega
      cases hmk : LoadOrder.mk?
          (g.set_load_order_dry (pyGet st.saved (st.current + m)).lord._loadOrder
            (pyGet st.saved (st.current + m)).lord._activeOrdered).1
          (g.set_load_order_dry (pyGet st.saved (st.current + m)).lord._loadOrder
            (pyGet st.saved (st.current + m)).lord._activeOrdered).2 with
      | error m' => simp only [hmk]
      | ok previous2 =>
        simp only [hmk]
        by_cases heq : loEq previous2 st.cached_lord
        · rw [if_pos heq, if_pos heq]
          exact ih (m + copysign1 m) (by unfold copysign1; split <;> omega)
        · rw [if_neg heq, if_neg heq]

/-- **C7**: the duplicate-state-skipping recursion of `__restore` always
terminates: every recursive call moves `index_move` one further from zero,
so giving the recursion an explicit fuel of `|current| + len + 1` never
exhausts the fuel — `restore_fuel` returns `some` of the (total) `__restore`
value for every initial state and every step, in particular `±1`. -/
theorem C7_restore_terminates (g : Game) (now : Nat) (st : LoState)
    (index_move : Int) :
    restore_fuel g now (st.current.natAbs + st.saved.length + 1) st index_move =
      some (__restore g now st index_move) :=
  restore_fuel_eq g now (st.current.natAbs + st.saved.length + 1) st index_move
    (by omega)

theorem lex_key_le {lo : LoadOrder} {x y : ModId} (h : loLex lo x y) :
    loIndexCachedOrMax lo x ≤ loIndexCachedOrMax lo y := by
  rcases h with h | h
  · exact h.le
  · exact h.1.le

theorem orderedInsert_lex_sorted (lo : LoadOrder) (a : ModId) (L : List ModId)
    (hs : L.Sorted (loLex lo)) (hall : ∀ b ∈ L, a ≤ b) :
    (List.orderedInsert
      (fun x y => loIndexCachedOrMax lo x ≤ loIndexCachedOrMax lo y) a L).Sorted
      (loLex lo) := by
  induction L with
  | nil => simp [List.Sorted]
  | cons b L ih =>
    rw [List.orderedInsert]
    by_cases hab : loIndexCachedOrMax lo a ≤ loIndexCachedOrMax lo b
    · rw [if_pos hab]
      rw [List.sorted_cons]
      refine ⟨?_, hs⟩
      intro c hc
      rcases List.mem_cons.mp hc with rfl | hcL
      · rcases Nat.lt_or_ge (loIndexCachedOrMax lo a) (loIndexCachedOrMax lo c) with h | h
        · exact Or.inl h
        · exact Or.inr ⟨Nat.le_antisymm hab h, hall c (List.mem_cons_self _ _)⟩
      · have hbc : loLex lo b c := (List.sorted_cons.mp hs).1 c hcL
        have hac : loIndexCachedOrMax lo a ≤ loIndexCachedOrMax lo c :=
          le_trans hab (lex_key_le hbc)
        rcases Nat.lt_or_ge (loIndexCachedOrMax lo a) (loIndexCachedOrMax lo c) with h | h
        · exact Or.inl h
        · exact Or.inr ⟨Nat.le_antisymm hac h, hall c (List.mem_cons_of_mem _ hcL)⟩
    · rw [if_neg hab]
      rw [List.sorted_cons]
      constructor
      · intro c hc
        rcases (List.mem_orderedInsert _).mp hc with rfl | hcL
        · exact Or.inl (Nat.lt_of_not_le hab)
        · exact (List.sorted_cons.mp hs).1 c hcL
      · exact ih (List.sorted_cons.mp hs).2
          (fun c hc => hall c (List.mem_cons_of_mem _ hc))

theorem insertionSort_key_lex_sorted (lo : LoadOrder) (l : List ModId)
    (hs : l.Sorted (· ≤ ·)) :
    (List.insertionSort
      (fun x y => loIndexCachedOrMax lo x ≤ loIndexCachedOrMax lo y) l).Sorted
      (loLex lo) := by
  induction l with
  | nil => simp [List.Sorted]
  | cons a l ih =>
    rw [List.insertionSort]
    apply orderedInsert_lex_sorted
    · exact ih (List.sorted_cons.mp hs).2
    · intro b hb
      exact (List.sorted_cons.mp hs).1 b ((List.perm_insertionSort _ _).mem_iff.mp hb)

theorem mod_loIndex_lt_length {l : List ModId} {x : ModId} {i : Nat}
    (h : mod_loIndex l x = some i) : i < l.length := by
  unfold mod_loIndex at h
  cases hf : l.enum.reverse.find? (fun p => p.2 == x) with
  | none => rw [hf] at h; cases h
  | some p =>
    rw [hf] at h
    have hp : p ∈ l.enum.reverse := List.mem_of_find?_eq_some hf
    rw [List.mem_reverse] at hp
    have h2 : l[p.1]? = some p.2 := List.mem_enum_iff_getElem?.mp hp
    have h3 : p.1 < l.length := by
      rcases List.getElem?_eq_some.mp h2 with ⟨hlt, _⟩
      exact hlt
    have h4 : p.1 = i := by
      simpa using h
    omega

/-- **C8**: `get_ordered` returns its input sorted by cached load-order
index with ties broken alphabetically (the `loLex` order); for any
identifier with no cached position, `loIndexCachedOrMax` yields the
`sys.maxint` sentinel, strictly greater than every valid index (valid
indexes are below the list length, which Python bounds by `sys.maxint`,
here a hypothesis); and the spec's example holds: with `"a" ↦ 0` cached at
position 0 and `"z" ↦ 25` unknown, `get_ordered ["z", "a"] = ["a", "z"]`. -/
theorem C8_get_ordered_sorted (cached_lord : LoadOrder) (mod_names : List ModId)
    (hlen : cached_lord._loadOrder.length ≤ maxint) :
    (get_ordered cached_lord mod_names).Sorted (loLex cached_lord) ∧
    (∀ m, mod_loIndex cached_lord._loadOrder m = none →
      ∀ m' i, mod_loIndex cached_lord._loadOrder m' = some i →
        i < loIndexCachedOrMax cached_lord m) ∧
    get_ordered (S 0) [25, 0] = [0, 25] := by
  refine ⟨?_, ?_, by decide⟩
  · exact insertionSort_key_lex_sorted cached_lord _
      (List.sorted_insertionSort _ _)
  · intro m hm m' i hi
    have h1 : loIndexCachedOrMax cached_lord m = maxint := by
      unfold loIndexCachedOrMax
      rw [hm]
    have h2 : i < cached_lord._loadOrder.length := mod_loIndex_lt_length hi
    omega

/-- Witness for C8: the spec's own example, plus the sentinel dominating
the only valid index of that snapshot. -/
theorem C8_get_ordered_sorted_witness :
    get_ordered (S 0) [25, 0] = [0, 25] ∧ 0 < loIndexCachedOrMax (S 0) 25 := by
  have h := C8_get_ordered_sorted (S 0) [25, 0] (by decide)
  exact ⟨h.2.2, h.2.1 25 (by decide) 0 0 (by decide)⟩

theorem finally_write (now : Nat) (lo : LoadOrder) (A B : List lo_entry)
    (e : lo_entry) (hne : ¬ loEq lo e.lord) :
    _update_cache_finally 0 now ⟨lo, A ++ e :: B, (A.length : Int)⟩ =
      ⟨lo, A ++ e :: ⟨now, lo⟩ :: B, (A.length : Int) + 1⟩ := by
  unfold _update_cache_finally
  rw [if_pos (Or.inr ⟨rfl, by rw [pyGet_append_cons]; exact hne⟩)]
  unfold _new_entry
  simp only
  rw [show ((A.length : Int) + 1).toNat = A.length + 1 from by omega]
  rw [pyInsertAt_append_cons]

theorem finally_nav (index_move : Int) (now : Nat) (c : LoadOrder)
    (sv : List lo_entry) (cur : Int) (hmove : index_move ≠ 0) (hcur : 0 ≤ cur)
    (heq : loEq (pyGet sv (cur + index_move)).lord c) :
    _update_cache_finally index_move now ⟨c, sv, cur⟩ = ⟨c, sv, cur + index_move⟩ := by
  unfold _update_cache_finally
  rw [if_neg (not_or.mpr ⟨by show ¬ (cur < 0); omega, by simp [hmove]⟩)]
  rw [if_pos hmove]
  simp only
  rw [if_neg (not_not_intro heq)]

/-- **C3** (amended): a cache update with non-zero `__index_move`
(undo/redo) leaves `_saved_load_orders` unchanged and only moves
`_current_list_index` by the step *provided* the reconciled snapshot equals
the history entry at the target index; when the applied snapshot differs
from the target (a partial undo/redo), `_update_cache` instead inserts a
fresh corrective entry, so the list can also grow during navigation — not
only on non-navigation reads/writes. -/
theorem C3_navigation_only_moves_index (g : Game) (lord acti : Option (List ModId))
    (index_move : Int) (now : Nat) (st : LoState) (l a : List ModId)
    (lo : LoadOrder) (hmove : index_move ≠ 0) (hcur : 0 ≤ st.current)
    (hlo : 0 ≤ st.current + index_move)
    (hhi : st.current + index_move ≤ (st.saved.length : Int) - 1)
    (hget : g.get_load_order lord acti = .ok (l, a))
    (hmk : LoadOrder.mk? l a = .ok lo)
    (heq : loEq (pyGet st.saved (st.current + index_move)).lord lo) :
    _update_cache g lord acti index_move now st =
      .ok ⟨lo, st.saved, st.current + index_move⟩ := by
  simp only [_update_cache, hget, hmk]
  rw [show ({ st with cached_lord := lo } : LoState) = ⟨lo, st.saved, st.current⟩ from rfl]
  rw [finally_nav index_move now lo st.saved st.current hmove hcur heq]

/-- Witness for the amended C3: an undo over an identity adapter moves only
the index. -/
theorem C3_navigation_only_moves_index_witness :
    _update_cache idGame (some [0]) (some []) (-1) 7 c3st =
      .ok ⟨S 0, c3st.saved, 0⟩ := by
  have h := C3_navigation_only_moves_index idGame (some [0]) (some []) (-1) 7
    c3st [0] [] (S 0) (by decide) (by decide) (by decide) (by decide) rfl
    (by decide) (by decide)
  rw [h]
  decide

/-- **C3** (counterexample): with an adapter that normalises the applied
order to `[2]`, the undo from `[S 0, S 1]` at index 1 is only partial
(`cached_lord` becomes `S 2 ≠ S 0`), and `_update_cache` *inserts a new
history entry during navigation*: the list grows from 2 to 3 entries,
refuting "the length of `_saved_load_orders` is unchanged" for undo calls. -/
theorem C3_navigation_grows_counterexample :
    undo_load_order normGame 7 c3st =
      .ok ⟨S 2, [⟨7, S 2⟩, ⟨0, S 0⟩, ⟨1, S 1⟩], 0⟩ ∧
    ([⟨7, S 2⟩, ⟨0, S 0⟩, ⟨1, S 1⟩] : List lo_entry).length ≠ c3st.saved.length := by
  constructor
  · unfold undo_load_order
    rw [__restore.eq_def]
    decide
  · decide

theorem loEq_symm {a b : LoadOrder} (h : loEq a b) : loEq b a :=
  ⟨h.1.symm, h.2.symm⟩

theorem save_lo_write (g : Game) (hg : IdentityAdapter g) (now : Nat)
    (w : List ModId × List ModId) (hw : w.2.toFinset ⊆ w.1.toFinset)
    (c : LoadOrder) (A B : List lo_entry) (e : lo_entry)
    (hne : ¬ loEq (LoadOrder.ofPair w) e.lord) :
    save_lo g (some w.1) (some w.2) 0 now ⟨c, A ++ e :: B, (A.length : Int)⟩ =
      .ok ⟨LoadOrder.ofPair w, A ++ e :: ⟨now, LoadOrder.ofPair w⟩ :: B,
        (A.length : Int) + 1⟩ := by
  simp only [save_lo, hg.1, _update_cache, hg.2.2, mk?_eq_ok_ofPair w hw]
  rw [show ({ (⟨c, A ++ e :: B, (A.length : Int)⟩ : LoState) with
    cached_lord := LoadOrder.ofPair w } : LoState) =
    ⟨LoadOrder.ofPair w, A ++ e :: B, (A.length : Int)⟩ from rfl]
  rw [finally_write now (LoadOrder.ofPair w) A B e hne]

theorem save_lo_list_writes (g : Game) (hg : IdentityAdapter g) (now : Nat)
    (ws : List (List ModId × List ModId)) :
    ∀ (A B : List lo_entry) (e : lo_entry),
    (∀ w ∈ ws, w.2.toFinset ⊆ w.1.toFinset) →
    List.Chain (fun x y => ¬ loEq x y) e.lord (ws.map LoadOrder.ofPair) →
    save_lo_list g now ws ⟨e.lord, A ++ e :: B, (A.length : Int)⟩ =
      .ok ⟨(ws.map LoadOrder.ofPair).getLastD e.lord,
        A ++ e :: (mkEntries now ws ++ B), (A.length : Int) + ws.length⟩ := by
  induction ws with
  | nil =>
    intro A B e hval hchain
    simp [save_lo_list, mkEntries]
  | cons w ws ih =>
    intro A B e hval hchain
    rw [List.map_cons, List.chain_cons] at hchain
    simp only [save_lo_list]
    rw [save_lo_write g hg now w (hval w (List.mem_cons_self _ _)) e.lord A B e
      (fun h => hchain.1 (loEq_symm h))]
    have ih2 := ih (A ++ [e]) B ⟨now, LoadOrder.ofPair w⟩
      (fun w' hw' => hval w' (List.mem_cons_of_mem _ hw')) hchain.2
    rw [List.append_assoc, List.singleton_append, List.length_append,
      List.length_singleton] at ih2
    push_cast at ih2
    dsimp only
    rw [ih2]
    simp only [Except.ok.injEq, LoState.mk.injEq, List.map_cons,
      List.getLastD_cons, mkEntries, List.map_cons, List.length_cons,
      List.append_assoc, List.singleton_append]
    exact ⟨trivial, by simp, by push_cast; omega⟩

theorem pyGet_append_cons2 (A : List lo_entry) (p d : lo_entry)
    (B : List lo_entry) :
    pyGet (A ++ p :: d :: B) ((A.length : Int) + 1) = d := by
  rw [show A ++ p :: d :: B = (A ++ [p]) ++ d :: B from by simp]
  rw [show ((A.length : Int) + 1) = (((A ++ [p]).length : Int)) from by simp]
  exact pyGet_append_cons _ _ _

theorem iterateE_succ_right (f : LoState → Except (LoErr × LoState) LoState)
    (n : Nat) : ∀ st : LoState,
    iterateE f (n + 1) st =
      match iterateE f n st with
      | .ok s => f s
      | .error e => .error e := by
  induction n with
  | zero =>
    intro st
    show (match f st with
      | .ok st1 => iterateE f 0 st1
      | .error e => .error e) = f st
    cases f st <;> rfl
  | succ n ih =>
    intro st
    show (match f st with
      | .ok st1 => iterateE f (n + 1) st1
      | .error e => .error e) =
      (match (match f st with
        | .ok st1 => iterateE f n st1
        | .error e => .error e) with
      | .ok s => f s
      | .error e => .error e)
    cases f st with
    | ok s1 =>
      dsimp only
      rw [ih s1]
    | error e => rfl

theorem restore_undo_step (g : Game) (hg : IdentityAdapter g) (now : Nat)
    (A B : List lo_entry) (p d : lo_entry)
    (hcanp : Canonical p.lord) (hne : ¬ loEq p.lord d.lord) :
    __restore g now ⟨d.lord, A ++ p :: d :: B, (A.length : Int) + 1⟩ (-1) =
      .ok ⟨p.lord, A ++ p :: d :: B, (A.length : Int)⟩ := by
  rw [__restore.eq_def]
  rw [dif_neg (by
    simp only [not_or, not_lt, not_le, List.length_append, List.length_cons]
    refine ⟨by omega, by push_cast; omega⟩)]
  rw [show ((A.length : Int) + 1 + -1) = (A.length : Int) from by omega]
  rw [pyGet_append_cons A p (d :: B)]
  dsimp only
  rw [hg.2.1]
  rw [show (LoadOrder.mk? p.lord._loadOrder p.lord._activeOrdered) = .ok p.lord
    from hcanp]
  dsimp only
  rw [if_neg hne]
  simp only [save_lo, hg.1, _update_cache, hg.2.2,
    show (LoadOrder.mk? p.lord._loadOrder p.lord._activeOrdered) = .ok p.lord
      from hcanp]
  rw [show ({ (⟨d.lord, A ++ p :: d :: B, (A.length : Int) + 1⟩ : LoState) with
    cached_lord := p.lord } : LoState) =
    ⟨p.lord, A ++ p :: d :: B, (A.length : Int) + 1⟩ from rfl]
  rw [finally_nav (-1) now p.lord (A ++ p :: d :: B) ((A.length : Int) + 1)
    (by omega) (by omega)
    (by rw [show ((A.length : Int) + 1 + -1) = (A.length : Int) from by omega]
        rw [pyGet_append_cons A p (d :: B)]
        exact loEq_refl _)]
  simp only [Except.ok.injEq, LoState.mk.injEq]
  exact ⟨trivial, trivial, by omega⟩

theorem restore_redo_step (g : Game) (hg : IdentityAdapter g) (now : Nat)
    (A B : List lo_entry) (p d : lo_entry)
    (hcand : Canonical d.lord) (hne : ¬ loEq d.lord p.lord) :
    __restore g now ⟨p.lord, A ++ p :: d :: B, (A.length : Int)⟩ 1 =
      .ok ⟨d.lord, A ++ p :: d :: B, (A.length : Int) + 1⟩ := by
  rw [__restore.eq_def]
  rw [dif_neg (by
    simp only [not_or, not_lt, not_le, List.length_append, List.length_cons]
    refine ⟨by omega, by push_cast; omega⟩)]
  rw [pyGet_append_cons2 A p d B]
  dsimp only
  rw [hg.2.1]
  rw [show (LoadOrder.mk? d.lord._loadOrder d.lord._activeOrdered) = .ok d.lord
    from hcand]
  dsimp only
  rw [if_neg hne]
  simp only [save_lo, hg.1, _update_cache, hg.2.2,
    show (LoadOrder.mk? d.lord._loadOrder d.lord._activeOrdered) = .ok d.lord
      from hcand]
  rw [show ({ (⟨p.lord, A ++ p :: d :: B, (A.length : Int)⟩ : LoState) with
    cached_lord := d.lord } : LoState) =
    ⟨d.lord, A ++ p :: d :: B, (A.length : Int)⟩ from rfl]
  rw [finally_nav 1 now d.lord (A ++ p :: d :: B) ((A.length : Int))
    (by omega) (by omega)
    (by rw [pyGet_append_cons2 A p d B]
        exact loEq_refl _)]

theorem undo_list (g : Game) (hg : IdentityAdapter g) (now : Nat)
    (E : List lo_entry) :
    ∀ (A B : List lo_entry) (e : lo_entry),
    Canonical e.lord → (∀ x ∈ E, Canonical x.lord) →
    List.Chain (fun x y => ¬ loEq x y) e.lord (E.map lo_entry.lord) →
    iterateE (undo_load_order g now) E.length
        ⟨(E.map lo_entry.lord).getLastD e.lord, A ++ e :: (E ++ B),
          (A.length : Int) + E.length⟩ =
      .ok ⟨e.lord, A ++ e :: (E ++ B), (A.length : Int)⟩ := by
  induction E with
  | nil =>
    intro A B e hce hcE hch
    simp [iterateE]
  | cons d E ih =>
    intro A B e hce hcE hch
    rw [List.map_cons, List.chain_cons] at hch
    have ih2 := ih (A ++ [e]) B d (hcE d (List.mem_cons_self _ _))
      (fun x hx => hcE x (List.mem_cons_of_mem _ hx)) hch.2
    have hstep := restore_undo_step g hg now A (E ++ B) e d hce hch.1
    rw [List.map_cons, List.getLastD_cons]
    rw [show A ++ e :: (d :: E ++ B) = (A ++ [e]) ++ d :: (E ++ B) from by simp]
    rw [show ((A.length : Int) + ((d :: E).length : Int)) =
      (((A ++ [e]).length : Int) + (E.length : Int)) from by push_cast [List.length_append, List.length_cons, List.length_singleton, List.length_nil]; try omega]
    rw [show (d :: E).length = E.length + 1 from rfl]
    rw [iterateE_succ_right, ih2]
    dsimp only
    rw [show (undo_load_order g now
        ⟨d.lord, (A ++ [e]) ++ d :: (E ++ B), ((A ++ [e]).length : Int)⟩) =
      (__restore g now
        ⟨d.lord, (A ++ [e]) ++ d :: (E ++ B), ((A ++ [e]).length : Int)⟩ (-1))
      from rfl]
    rw [show ((A ++ [e]) ++ d :: (E ++ B) : List lo_entry) =
      A ++ e :: d :: (E ++ B) from by simp]
    rw [show (((A ++ [e]).length : Nat) : Int) = (A.length : Int) + 1 from by
      push_cast [List.length_append, List.length_cons, List.length_singleton, List.length_nil]
      try omega]
    rw [hstep]

theorem redo_list (g : Game) (hg : IdentityAdapter g) (now : Nat)
    (E : List lo_entry) :
    ∀ (A B : List lo_entry) (e : lo_entry),
    (∀ x ∈ E, Canonical x.lord) →
    List.Chain (fun x y => ¬ loEq x y) e.lord (E.map lo_entry.lord) →
    iterateE (redo_load_order g now) E.length
        ⟨e.lord, A ++ e :: (E ++ B), (A.length : Int)⟩ =
      .ok ⟨(E.map lo_entry.lord).getLastD e.lord, A ++ e :: (E ++ B),
        (A.length : Int) + E.length⟩ := by
  induction E with
  | nil =>
    intro A B e hcE hch
    simp [iterateE]
  | cons d E ih =>
    intro A B e hcE hch
    rw [List.map_cons, List.chain_cons] at hch
    have ih2 := ih (A ++ [e]) B d
      (fun x hx => hcE x (List.mem_cons_of_mem _ hx)) hch.2
    have hstep := restore_redo_step g hg now A (E ++ B) e d
      (hcE d (List.mem_cons_self _ _)) (fun h => hch.1 (loEq_symm h))
    rw [List.map_cons, List.getLastD_cons]
    rw [show A ++ e :: (d :: E ++ B) = (A ++ [e]) ++ d :: (E ++ B) from by simp]
    rw [show ((A.length : Int) + ((d :: E).length : Int)) =
      (((A ++ [e]).length : Int) + (E.length : Int)) from by push_cast [List.length_append, List.length_cons, List.length_singleton, List.length_nil]; try omega]
    rw [show (d :: E).length = E.length + 1 from rfl]
    rw [iterateE]
    rw [show (redo_load_order g now
        ⟨e.lord, (A ++ [e]) ++ d :: (E ++ B), ((A.length : Nat) : Int)⟩) =
      (__restore g now
        ⟨e.lord, (A ++ [e]) ++ d :: (E ++ B), ((A.length : Nat) : Int)⟩ 1)
      from rfl]
    rw [show ((A ++ [e]) ++ d :: (E ++ B) : List lo_entry) =
      A ++ e :: d :: (E ++ B) from by simp]
    rw [hstep]
    dsimp only
    rw [show ((A.length : Int) + 1) = (((A ++ [e]).length : Nat) : Int) from by
      push_cast [List.length_append, List.length_cons, List.length_singleton, List.length_nil]
      try omega]
    rw [show (A ++ e :: d :: (E ++ B) : List lo_entry) =
      (A ++ [e]) ++ d :: (E ++ B) from by simp]
    rw [ih2]

theorem mkEntries_map_lord (now : Nat) (ws : List (List ModId × List ModId)) :
    (mkEntries now ws).map lo_entry.lord = ws.map LoadOrder.ofPair := by
  simp [mkEntries]

theorem mkEntries_length (now : Nat) (ws : List (List ModId × List ModId)) :
    (mkEntries now ws).length = ws.length := by
  simp [mkEntries]

/-- **C4** (amended): over an adapter that returns every requested pair
unchanged, starting from a history whose current entry is the cached
snapshot, after `N` writes producing pairwise-distinct snapshots *whose
first write also differs from the initial snapshot*, `N` undos restore the
cache to the initial snapshot and `N` redos restore it to the final written
snapshot (histories may contain arbitrary entries before and after the
current one). Without the extra first-write condition the claim fails, see
the counterexample. -/
theorem C4_undo_redo_roundtrip (g : Game) (hg : IdentityAdapter g) (now : Nat)
    (ws : List (List ModId × List ModId)) (A B : List lo_entry) (e : lo_entry)
    (hval : ∀ w ∈ ws, w.2.toFinset ⊆ w.1.toFinset)
    (hcan : Canonical e.lord)
    (hpw : (ws.map LoadOrder.ofPair).Pairwise (fun x y => ¬ loEq x y))
    (hhead : ∀ w0, ws.head? = some w0 → ¬ loEq (LoadOrder.ofPair w0) e.lord) :
    save_lo_list g now ws ⟨e.lord, A ++ e :: B, (A.length : Int)⟩ =
      .ok ⟨(ws.map LoadOrder.ofPair).getLastD e.lord,
        A ++ e :: (mkEntries now ws ++ B), (A.length : Int) + ws.length⟩ ∧
    iterateE (undo_load_order g now) ws.length
        ⟨(ws.map LoadOrder.ofPair).getLastD e.lord,
          A ++ e :: (mkEntries now ws ++ B), (A.length : Int) + ws.length⟩ =
      .ok ⟨e.lord, A ++ e :: (mkEntries now ws ++ B), (A.length : Int)⟩ ∧
    iterateE (redo_load_order g now) ws.length
        ⟨e.lord, A ++ e :: (mkEntries now ws ++ B), (A.length : Int)⟩ =
      .ok ⟨(ws.map LoadOrder.ofPair).getLastD e.lord,
        A ++ e :: (mkEntries now ws ++ B), (A.length : Int) + ws.length⟩ := by
  have hchain : List.Chain (fun x y => ¬ loEq x y) e.lord
      (ws.map LoadOrder.ofPair) := by
    cases ws with
    | nil => exact List.Chain.nil
    | cons w ws' =>
      rw [List.map_cons]
      exact List.Chain.cons (fun h => hhead w rfl (loEq_symm h))
        (List.Pairwise.chain' hpw)
  have hcanE : ∀ x ∈ mkEntries now ws, Canonical x.lord := by
    intro x hx
    simp only [mkEntries, List.mem_map] at hx
    obtain ⟨w, hw, rfl⟩ := hx
    exact canonical_ofPair w (hval w hw)
  have hchE : List.Chain (fun x y => ¬ loEq x y) e.lord
      ((mkEntries now ws).map lo_entry.lord) := by
    rw [mkEntries_map_lord]
    exact hchain
  refine ⟨save_lo_list_writes g hg now ws A B e hval hchain, ?_, ?_⟩
  · have h2 := undo_list g hg now (mkEntries now ws) A B e hcan hcanE hchE
    rw [mkEntries_map_lord, mkEntries_length] at h2
    exact h2
  · have h3 := redo_list g hg now (mkEntries now ws) A B e hcanE hchE
    rw [mkEntries_map_lord, mkEntries_length] at h3
    exact h3

theorem identity_idGame : IdentityAdapter idGame :=
  ⟨fun _ _ _ _ => rfl, fun _ _ => rfl, fun _ _ => rfl⟩

/-- Witness for the amended C4: two distinct writes on a one-entry history,
then two undos back to the initial snapshot and two redos to the final
one. -/
theorem C4_undo_redo_roundtrip_witness :
    save_lo_list idGame 3 (([([1], []), ([2], [])]) : List (List ModId × List ModId))
        ⟨(⟨0, S 0⟩ : lo_entry).lord, ([] : List lo_entry) ++ (⟨0, S 0⟩ : lo_entry) :: [],
          (([] : List lo_entry).length : Int)⟩ =
      .ok ⟨(((([([1], []), ([2], [])]) : List (List ModId × List ModId)).map LoadOrder.ofPair)).getLastD
          (⟨0, S 0⟩ : lo_entry).lord,
        ([] : List lo_entry) ++ (⟨0, S 0⟩ : lo_entry) ::
          (mkEntries 3 (([([1], []), ([2], [])]) : List (List ModId × List ModId)) ++ []),
        (([] : List lo_entry).length : Int) + (([([1], []), ([2], [])]) : List (List ModId × List ModId)).length⟩ ∧
    iterateE (undo_load_order idGame 3) (([([1], []), ([2], [])]) : List (List ModId × List ModId)).length
        ⟨(((([([1], []), ([2], [])]) : List (List ModId × List ModId)).map LoadOrder.ofPair)).getLastD
          (⟨0, S 0⟩ : lo_entry).lord,
        ([] : List lo_entry) ++ (⟨0, S 0⟩ : lo_entry) ::
          (mkEntries 3 (([([1], []), ([2], [])]) : List (List ModId × List ModId)) ++ []),
        (([] : List lo_entry).length : Int) + (([([1], []), ([2], [])]) : List (List ModId × List ModId)).length⟩ =
      .ok ⟨(⟨0, S 0⟩ : lo_entry).lord,
        ([] : List lo_entry) ++ (⟨0, S 0⟩ : lo_entry) ::
          (mkEntries 3 (([([1], []), ([2], [])]) : List (List ModId × List ModId)) ++ []),
        (([] : List lo_entry).length : Int)⟩ ∧
    iterateE (redo_load_order idGame 3) (([([1], []), ([2], [])]) : List (List ModId × List ModId)).length
        ⟨(⟨0, S 0⟩ : lo_entry).lord,
        ([] : List lo_entry) ++ (⟨0, S 0⟩ : lo_entry) ::
          (mkEntries 3 (([([1], []), ([2], [])]) : List (List ModId × List ModId)) ++ []),
        (([] : List lo_entry).length : Int)⟩ =
      .ok ⟨(((([([1], []), ([2], [])]) : List (List ModId × List ModId)).map LoadOrder.ofPair)).getLastD
          (⟨0, S 0⟩ : lo_entry).lord,
        ([] : List lo_entry) ++ (⟨0, S 0⟩ : lo_entry) ::
          (mkEntries 3 (([([1], []), ([2], [])]) : List (List ModId × List ModId)) ++ []),
        (([] : List lo_entry).length : Int) + (([([1], []), ([2], [])]) : List (List ModId × List ModId)).length⟩ :=
  C4_undo_redo_roundtrip idGame identity_idGame 3 (([([1], []), ([2], [])]) : List (List ModId × List ModId))
    [] [] ⟨0, S 0⟩ (by decide) (by decide) (by decide)
    (by intro w0 h; simp [List.head?] at h; subst h; decide)

/-- **C4** (counterexample to the claim as stated): history `[S 0, S 7]`
with the current entry equal to the cached snapshot `S 0`; one `save_lo`
write of the (trivially pairwise-distinct) snapshot `S 0` over the identity
adapter leaves the state unchanged; one undo returns the initial snapshot,
but one redo then lands on the *pre-existing future entry* `S 7`, not on
the written snapshot `S 0` — so "redo called N times makes the cache equal
to the final written snapshot" fails when the first write equals the
initial snapshot. -/
theorem C4_roundtrip_counterexample :
    (c4st.saved[c4st.current.toNat]?).map lo_entry.lord =
      some c4st.cached_lord ∧
    LoadOrder.ofPair ([0], []) = S 0 ∧
    save_lo_list idGame 3 [([0], [])] c4st = .ok c4st ∧
    iterateE (undo_load_order idGame 3) 1 c4st = .ok c4st ∧
    iterateE (redo_load_order idGame 3) 1 c4st = .ok ⟨S 7, c4st.saved, 1⟩ ∧
    ¬ loEq (S 7) (S 0) := by
  have hundo : undo_load_order idGame 3 c4st = .ok c4st := by
    unfold undo_load_order
    rw [__restore.eq_def]
    decide
  have hredo : redo_load_order idGame 3 c4st = .ok ⟨S 7, c4st.saved, 1⟩ := by
    unfold redo_load_order
    rw [__restore.eq_def]
    decide
  refine ⟨by decide, by decide, by decide, ?_, ?_, by decide⟩
  · show (match undo_load_order idGame 3 c4st with
      | .ok st1 => iterateE (undo_load_order idGame 3) 0 st1
      | .error e => .error e) = .ok c4st
    rw [hundo]
    rfl
  · show (match redo_load_order idGame 3 c4st with
      | .ok st1 => iterateE (redo_load_order idGame 3) 0 st1
      | .error e => .error e) = .ok ⟨S 7, c4st.saved, 1⟩
    rw [hredo]
    rfl
